import Mathlib

/-!
# Verification of the capture_mac capture-and-crop pipeline

Shallow embedding of the core algorithms of the repository:

* `shot.py` — `WindowCapture.crop_nonwhite_bbox_with_margin` (content-aware
  cropping), `WindowCapture.capture_window` (region capture),
  `WindowCapture.get_window_info` (window matching), `batch_capture` /
  `main` batch loop (page naming and advance actions);
* `llm_ocr.py` — the directory OCR pass with its rate-limit retry list and
  the merge step.

Images are modelled as row-major lists of RGB pixel triples (as produced by
`np.array(img.convert("RGB"))`), machine integers as `Nat`/`Int`, and the
side-effecting loops as functions producing explicit event traces.
-/

/-- An RGB pixel, one `Nat` per channel (values 0–255 in real images). -/
abbrev Pix := Nat × Nat × Nat

/-- A raster image in row-major order: a list of rows of pixels.
`np.array` of a PIL RGB image; rectangularity is stated where needed. -/
abbrev Img := List (List Pix)

/-- `np.all(arr == 255, axis=2)`: a pixel is background iff it is pure white,
all three channels at 255 (shot.py line 192). -/
def pixIsWhite (p : Pix) : Bool := p = (255, 255, 255)

/-- `np.argwhere(~mask)`: the (y, x) coordinates of all non-white pixels, in
row-major scan order (shot.py line 193). -/
def nonwhite_coords (img : Img) : List (Nat × Nat) :=
  (img.enum.map (fun yr =>
    yr.2.enum.filterMap (fun xp =>
      if pixIsWhite xp.2 then none else some (yr.1, xp.1)))).flatten

/-- `coords.min(axis=0)` on one component: fold of `min` over a nonempty list
given as head and tail. -/
def fold_min (a : Nat) (l : List Nat) : Nat := l.foldl min a

/-- `coords.max(axis=0)` on one component. -/
def fold_max (a : Nat) (l : List Nat) : Nat := l.foldl max a

/-- Pixel lookup used by `img.crop`: out-of-bounds reads give PIL's fill
value, black `(0,0,0)`. -/
def getpix (img : Img) (y x : Nat) : Pix :=
  ((img[y]?.bind fun row => row[x]?).getD (0, 0, 0))

/-- `img.crop((x0, y0, x1, y1))` for already-clamped bounds: the rectangle of
rows `y0 ≤ y < y1` and columns `x0 ≤ x < x1`. -/
def pil_crop (img : Img) (x0 y0 x1 y1 : Nat) : Img :=
  (List.range (y1 - y0)).map (fun dy =>
    (List.range (x1 - x0)).map (fun dx => getpix img (y0 + dy) (x0 + dx)))

/-- The margin clamping of shot.py lines 202–205, on the raw bbox
`(y0, y1, x0, x1)`: returns the adjusted `(y0, y1, x0, x1)`. -/
def adjusted_bounds (y0 y1 x0 x1 mt mb ml mr : Int) : Int × Int × Int × Int :=
  (max 0 (y0 + mt),
   max (max 0 (y0 + mt)) (y1 - mb),
   max 0 (x0 + ml),
   max (max 0 (x0 + ml)) (x1 - mr))

/-- `y0, x0 = coords.min(axis=0)`, first component (shot.py line 199). -/
def bbox_y0 (c : Nat × Nat) (cs : List (Nat × Nat)) : Nat :=
  fold_min c.1 (cs.map Prod.fst)

/-- `y0, x0 = coords.min(axis=0)`, second component. -/
def bbox_x0 (c : Nat × Nat) (cs : List (Nat × Nat)) : Nat :=
  fold_min c.2 (cs.map Prod.snd)

/-- `y1, x1 = coords.max(axis=0) + 1`, first component (shot.py line 200). -/
def bbox_y1 (c : Nat × Nat) (cs : List (Nat × Nat)) : Nat :=
  fold_max c.1 (cs.map Prod.fst) + 1

/-- `y1, x1 = coords.max(axis=0) + 1`, second component. -/
def bbox_x1 (c : Nat × Nat) (cs : List (Nat × Nat)) : Nat :=
  fold_max c.2 (cs.map Prod.snd) + 1

/-- `WindowCapture.crop_nonwhite_bbox_with_margin` (shot.py lines 184–209):
crop to the bounding box of non-white pixels, then apply margins with
clamping; a fully white image is returned unchanged. -/
def crop_nonwhite_bbox_with_margin (img : Img) (mt mb ml mr : Int) : Img :=
  match nonwhite_coords img with
  | [] => img
  | c :: cs =>
    let b := adjusted_bounds (bbox_y0 c cs) (bbox_y1 c cs)
      (bbox_x0 c cs) (bbox_x1 c cs) mt mb ml mr
    pil_crop img b.2.2.1.toNat b.1.toNat b.2.2.2.toNat b.2.1.toNat

/-! ## Basic lemmas about the model -/

theorem fold_min_le_self (l : List Nat) : ∀ a, fold_min a l ≤ a := by
  induction l with
  | nil => exact fun a => Nat.le_refl a
  | cons b l ih =>
    intro a
    exact le_trans (ih (min a b)) (min_le_left a b)

theorem fold_min_le_mem (l : List Nat) : ∀ a b, b ∈ l → fold_min a l ≤ b := by
  induction l with
  | nil => intro a b hb; cases hb
  | cons c l ih =>
    intro a b hb
    rcases List.mem_cons.mp hb with h | h
    · subst h
      exact le_trans (fold_min_le_self l (min a b)) (min_le_right a b)
    · exact ih (min a c) b h

theorem fold_min_mem (l : List Nat) :
    ∀ a, fold_min a l = a ∨ fold_min a l ∈ l := by
  induction l with
  | nil => exact fun a => Or.inl rfl
  | cons b l ih =>
    intro a
    have he : fold_min a (b :: l) = fold_min (min a b) l := rfl
    rcases ih (min a b) with h | h
    · rcases Nat.le_total a b with hab | hab
      · left; rw [he, h, min_eq_left hab]
      · right
        rw [he, h, min_eq_right hab]
        exact List.mem_cons_self b l
    · right
      rw [he]
      exact List.mem_cons_of_mem b h

theorem le_fold_max_self (l : List Nat) : ∀ a, a ≤ fold_max a l := by
  induction l with
  | nil => exact fun a => Nat.le_refl a
  | cons b l ih =>
    intro a
    exact le_trans (le_max_left a b) (ih (max a b))

theorem mem_le_fold_max (l : List Nat) : ∀ a b, b ∈ l → b ≤ fold_max a l := by
  induction l with
  | nil => intro a b hb; cases hb
  | cons c l ih =>
    intro a b hb
    rcases List.mem_cons.mp hb with h | h
    · subst h
      exact le_trans (le_max_right a b) (le_fold_max_self l (max a b))
    · exact ih (max a c) b h

theorem fold_max_mem (l : List Nat) :
    ∀ a, fold_max a l = a ∨ fold_max a l ∈ l := by
  induction l with
  | nil => exact fun a => Or.inl rfl
  | cons b l ih =>
    intro a
    have he : fold_max a (b :: l) = fold_max (max a b) l := rfl
    rcases ih (max a b) with h | h
    · rcases Nat.le_total a b with hab | hab
      · right
        rw [he, h, max_eq_right hab]
        exact List.mem_cons_self b l
      · left; rw [he, h, max_eq_left hab]
    · right
      rw [he]
      exact List.mem_cons_of_mem b h

theorem fold_max_le (l : List Nat) :
    ∀ a c, a ≤ c → (∀ b ∈ l, b ≤ c) → fold_max a l ≤ c := by
  induction l with
  | nil => exact fun a c ha _ => ha
  | cons b l ih =>
    intro a c ha h
    exact ih (max a b) c (max_le ha (h b (List.mem_cons_self b l)))
      (fun x hx => h x (List.mem_cons_of_mem b hx))

/-- Membership in the non-white coordinate list characterised by indexed
pixel lookup. -/
theorem mem_nonwhite_coords {img : Img} {y x : Nat} :
    (y, x) ∈ nonwhite_coords img ↔
      ∃ row p, img[y]? = some row ∧ row[x]? = some p ∧
        pixIsWhite p = false := by
  unfold nonwhite_coords
  simp only [List.mem_flatten, List.mem_map]
  constructor
  · rintro ⟨L, ⟨⟨i, row⟩, hir, rfl⟩, hL⟩
    simp only [List.mem_filterMap] at hL
    obtain ⟨⟨j, p⟩, hjp, hif⟩ := hL
    by_cases hw : pixIsWhite p
    · simp [hw] at hif
    · simp only [hw, Bool.false_eq_true, not_false_iff, if_false,
        Option.some.injEq, Prod.mk.injEq] at hif
      obtain ⟨rfl, rfl⟩ := hif
      exact ⟨row, p, List.mk_mem_enum_iff_getElem?.mp hir,
        List.mk_mem_enum_iff_getElem?.mp hjp, by simpa using hw⟩
  · rintro ⟨row, p, hrow, hp, hw⟩
    refine ⟨_, ⟨⟨y, row⟩, List.mk_mem_enum_iff_getElem?.mpr hrow, rfl⟩, ?_⟩
    simp only [List.mem_filterMap]
    exact ⟨⟨x, p⟩, List.mk_mem_enum_iff_getElem?.mpr hp, by simp [hw]⟩

theorem nonwhite_coords_nil_of_white {img : Img}
    (h : ∀ row ∈ img, ∀ p ∈ row, pixIsWhite p = true) :
    nonwhite_coords img = [] := by
  rw [List.eq_nil_iff_forall_not_mem]
  rintro ⟨y, x⟩ hmem
  obtain ⟨row, p, hrow, hp, hw⟩ := mem_nonwhite_coords.mp hmem
  have : pixIsWhite p = true :=
    h row (List.mem_iff_getElem?.mpr ⟨y, hrow⟩) p (List.mem_iff_getElem?.mpr ⟨x, hp⟩)
  rw [this] at hw
  cases hw

/-- **C6.** A fully white image — every pixel has all three RGB channels at
255 — is returned unchanged by the cropper, whatever the margins: the output
is the very same image, hence has identical dimensions, and the operation
succeeds instead of producing a zero-size image. -/
theorem crop_all_white_unchanged (img : Img) (mt mb ml mr : Int)
    (h : ∀ row ∈ img, ∀ p ∈ row, p = (255, 255, 255)) :
    crop_nonwhite_bbox_with_margin img mt mb ml mr = img := by
  have hw : nonwhite_coords img = [] :=
    nonwhite_coords_nil_of_white (fun row hrow p hp => by
      simp [pixIsWhite, h row hrow p hp])
  unfold crop_nonwhite_bbox_with_margin
  rw [hw]

/-- Witness for C6 at a concrete 2×2 all-white image and margins 3,4,5,6. -/
theorem crop_all_white_unchanged_witness :
    crop_nonwhite_bbox_with_margin
      [[(255,255,255), (255,255,255)], [(255,255,255), (255,255,255)]]
      3 4 5 6 =
      [[(255,255,255), (255,255,255)], [(255,255,255), (255,255,255)]] :=
  crop_all_white_unchanged _ 3 4 5 6 (by decide)

/-- Unfolding of the cropper when no non-white pixel exists. -/
theorem crop_eq_of_coords_nil {img : Img} (hc : nonwhite_coords img = [])
    (mt mb ml mr : Int) :
    crop_nonwhite_bbox_with_margin img mt mb ml mr = img := by
  unfold crop_nonwhite_bbox_with_margin
  rw [hc]

/-- Unfolding of the cropper when the coordinate list is nonempty. -/
theorem crop_eq_of_coords_cons {img : Img} {c : Nat × Nat}
    {cs : List (Nat × Nat)} (hc : nonwhite_coords img = c :: cs)
    (mt mb ml mr : Int) :
    crop_nonwhite_bbox_with_margin img mt mb ml mr =
      pil_crop img
        (adjusted_bounds (bbox_y0 c cs) (bbox_y1 c cs) (bbox_x0 c cs)
          (bbox_x1 c cs) mt mb ml mr).2.2.1.toNat
        (adjusted_bounds (bbox_y0 c cs) (bbox_y1 c cs) (bbox_x0 c cs)
          (bbox_x1 c cs) mt mb ml mr).1.toNat
        (adjusted_bounds (bbox_y0 c cs) (bbox_y1 c cs) (bbox_x0 c cs)
          (bbox_x1 c cs) mt mb ml mr).2.2.2.toNat
        (adjusted_bounds (bbox_y0 c cs) (bbox_y1 c cs) (bbox_x0 c cs)
          (bbox_x1 c cs) mt mb ml mr).2.1.toNat := by
  unfold crop_nonwhite_bbox_with_margin
  rw [hc]

theorem pil_crop_length (img : Img) (x0 y0 x1 y1 : Nat) :
    (pil_crop img x0 y0 x1 y1).length = y1 - y0 := by
  simp [pil_crop]

theorem pil_crop_row_length {img : Img} {x0 y0 x1 y1 : Nat} {row : List Pix}
    (h : row ∈ pil_crop img x0 y0 x1 y1) : row.length = x1 - x0 := by
  simp only [pil_crop, List.mem_map] at h
  obtain ⟨dy, _, rfl⟩ := h
  simp

/-- **C5.** For every image with some non-white content and all four margins
non-negative, the cropper's adjusted bounds are exactly
`y0' = max 0 (y0+mt)`, `y1' = max y0' (y1-mb)`, `x0' = max 0 (x0+ml)`,
`x1' = max x0' (x1-mr)`; the resulting width and height are never negative,
and oversized margins merely collapse the crop window (the cropper still
returns an image with those — possibly zero — dimensions, it has no error
case). -/
theorem crop_margin_clamp (img : Img) (mt mb ml mr : Int) (c : Nat × Nat)
    (cs : List (Nat × Nat)) (hc : nonwhite_coords img = c :: cs)
    (hmt : 0 ≤ mt) (hmb : 0 ≤ mb) (hml : 0 ≤ ml) (hmr : 0 ≤ mr) :
    (adjusted_bounds (bbox_y0 c cs) (bbox_y1 c cs) (bbox_x0 c cs)
        (bbox_x1 c cs) mt mb ml mr).1 = max 0 ((bbox_y0 c cs : Int) + mt) ∧
    (adjusted_bounds (bbox_y0 c cs) (bbox_y1 c cs) (bbox_x0 c cs)
        (bbox_x1 c cs) mt mb ml mr).2.1 =
      max (adjusted_bounds (bbox_y0 c cs) (bbox_y1 c cs) (bbox_x0 c cs)
        (bbox_x1 c cs) mt mb ml mr).1 ((bbox_y1 c cs : Int) - mb) ∧
    (adjusted_bounds (bbox_y0 c cs) (bbox_y1 c cs) (bbox_x0 c cs)
        (bbox_x1 c cs) mt mb ml mr).2.2.1 = max 0 ((bbox_x0 c cs : Int) + ml) ∧
    (adjusted_bounds (bbox_y0 c cs) (bbox_y1 c cs) (bbox_x0 c cs)
        (bbox_x1 c cs) mt mb ml mr).2.2.2 =
      max (adjusted_bounds (bbox_y0 c cs) (bbox_y1 c cs) (bbox_x0 c cs)
        (bbox_x1 c cs) mt mb ml mr).2.2.1 ((bbox_x1 c cs : Int) - mr) ∧
    0 ≤ (adjusted_bounds (bbox_y0 c cs) (bbox_y1 c cs) (bbox_x0 c cs)
        (bbox_x1 c cs) mt mb ml mr).2.1 -
      (adjusted_bounds (bbox_y0 c cs) (bbox_y1 c cs) (bbox_x0 c cs)
        (bbox_x1 c cs) mt mb ml mr).1 ∧
    0 ≤ (adjusted_bounds (bbox_y0 c cs) (bbox_y1 c cs) (bbox_x0 c cs)
        (bbox_x1 c cs) mt mb ml mr).2.2.2 -
      (adjusted_bounds (bbox_y0 c cs) (bbox_y1 c cs) (bbox_x0 c cs)
        (bbox_x1 c cs) mt mb ml mr).2.2.1 ∧
    (crop_nonwhite_bbox_with_margin img mt mb ml mr).length =
      ((adjusted_bounds (bbox_y0 c cs) (bbox_y1 c cs) (bbox_x0 c cs)
        (bbox_x1 c cs) mt mb ml mr).2.1 -
       (adjusted_bounds (bbox_y0 c cs) (bbox_y1 c cs) (bbox_x0 c cs)
        (bbox_x1 c cs) mt mb ml mr).1).toNat ∧
    ∀ row ∈ crop_nonwhite_bbox_with_margin img mt mb ml mr,
      row.length =
        ((adjusted_bounds (bbox_y0 c cs) (bbox_y1 c cs) (bbox_x0 c cs)
          (bbox_x1 c cs) mt mb ml mr).2.2.2 -
         (adjusted_bounds (bbox_y0 c cs) (bbox_y1 c cs) (bbox_x0 c cs)
          (bbox_x1 c cs) mt mb ml mr).2.2.1).toNat := by
  refine ⟨rfl, rfl, rfl, rfl, ?_, ?_, ?_, ?_⟩
  · simp only [adjusted_bounds]
    omega
  · simp only [adjusted_bounds]
    omega
  · rw [crop_eq_of_coords_cons hc, pil_crop_length]
    simp only [adjusted_bounds]
    omega
  · intro row hrow
    rw [crop_eq_of_coords_cons hc] at hrow
    rw [pil_crop_row_length hrow]
    simp only [adjusted_bounds]
    omega

/-- Witness for C5: a 1×1 black image with margins 10,10,10,10 larger than
the content box — the crop collapses to a 0×0 region instead of failing. -/
theorem crop_margin_clamp_witness :
    nonwhite_coords [[((0,0,0) : Pix)]] = [(0, 0)] ∧
    (crop_nonwhite_bbox_with_margin [[((0,0,0) : Pix)]] 10 10 10 10).length = 0 := by
  constructor
  · decide
  · exact (crop_margin_clamp [[((0,0,0) : Pix)]] 10 10 10 10 (0,0) []
      (by decide) (by decide) (by decide) (by decide) (by decide)).2.2.2.2.2.2.1.trans
      (by decide)

/-! ## Bounding-box membership lemmas -/

theorem bbox_y0_le_of_mem {c : Nat × Nat} {cs : List (Nat × Nat)}
    {q : Nat × Nat} (hq : q ∈ c :: cs) : bbox_y0 c cs ≤ q.1 := by
  rcases List.mem_cons.mp hq with h | h
  · subst h; exact fold_min_le_self _ _
  · exact fold_min_le_mem _ _ _ (List.mem_map_of_mem Prod.fst h)

theorem bbox_x0_le_of_mem {c : Nat × Nat} {cs : List (Nat × Nat)}
    {q : Nat × Nat} (hq : q ∈ c :: cs) : bbox_x0 c cs ≤ q.2 := by
  rcases List.mem_cons.mp hq with h | h
  · subst h; exact fold_min_le_self _ _
  · exact fold_min_le_mem _ _ _ (List.mem_map_of_mem Prod.snd h)

theorem lt_bbox_y1_of_mem {c : Nat × Nat} {cs : List (Nat × Nat)}
    {q : Nat × Nat} (hq : q ∈ c :: cs) : q.1 < bbox_y1 c cs := by
  have h : q.1 ≤ fold_max c.1 (cs.map Prod.fst) := by
    rcases List.mem_cons.mp hq with h | h
    · subst h; exact le_fold_max_self _ _
    · exact mem_le_fold_max _ _ _ (List.mem_map_of_mem Prod.fst h)
  unfold bbox_y1
  omega

theorem lt_bbox_x1_of_mem {c : Nat × Nat} {cs : List (Nat × Nat)}
    {q : Nat × Nat} (hq : q ∈ c :: cs) : q.2 < bbox_x1 c cs := by
  have h : q.2 ≤ fold_max c.2 (cs.map Prod.snd) := by
    rcases List.mem_cons.mp hq with h | h
    · subst h; exact le_fold_max_self _ _
    · exact mem_le_fold_max _ _ _ (List.mem_map_of_mem Prod.snd h)
  unfold bbox_x1
  omega

theorem exists_mem_fst_eq_bbox_y0 (c : Nat × Nat) (cs : List (Nat × Nat)) :
    ∃ q ∈ c :: cs, q.1 = bbox_y0 c cs := by
  unfold bbox_y0
  rcases fold_min_mem (cs.map Prod.fst) c.1 with h | h
  · exact ⟨c, List.mem_cons_self c cs, h.symm⟩
  · obtain ⟨q, hq, hq1⟩ := List.mem_map.mp h
    exact ⟨q, List.mem_cons_of_mem c hq, hq1⟩

theorem exists_mem_snd_eq_bbox_x0 (c : Nat × Nat) (cs : List (Nat × Nat)) :
    ∃ q ∈ c :: cs, q.2 = bbox_x0 c cs := by
  unfold bbox_x0
  rcases fold_min_mem (cs.map Prod.snd) c.2 with h | h
  · exact ⟨c, List.mem_cons_self c cs, h.symm⟩
  · obtain ⟨q, hq, hq1⟩ := List.mem_map.mp h
    exact ⟨q, List.mem_cons_of_mem c hq, hq1⟩

theorem exists_mem_fst_eq_bbox_y1 (c : Nat × Nat) (cs : List (Nat × Nat)) :
    ∃ q ∈ c :: cs, q.1 + 1 = bbox_y1 c cs := by
  unfold bbox_y1
  rcases fold_max_mem (cs.map Prod.fst) c.1 with h | h
  · exact ⟨c, List.mem_cons_self c cs, by omega⟩
  · obtain ⟨q, hq, hq1⟩ := List.mem_map.mp h
    exact ⟨q, List.mem_cons_of_mem c hq, by omega⟩

theorem exists_mem_snd_eq_bbox_x1 (c : Nat × Nat) (cs : List (Nat × Nat)) :
    ∃ q ∈ c :: cs, q.2 + 1 = bbox_x1 c cs := by
  unfold bbox_x1
  rcases fold_max_mem (cs.map Prod.snd) c.2 with h | h
  · exact ⟨c, List.mem_cons_self c cs, by omega⟩
  · obtain ⟨q, hq, hq1⟩ := List.mem_map.mp h
    exact ⟨q, List.mem_cons_of_mem c hq, by omega⟩

theorem getpix_nonwhite_of_mem {img : Img} {y x : Nat}
    (h : (y, x) ∈ nonwhite_coords img) :
    pixIsWhite (getpix img y x) = false := by
  obtain ⟨row, p, h1, h2, h3⟩ := mem_nonwhite_coords.mp h
  simp [getpix, h1, h2, h3]

theorem pil_crop_getElem? (img : Img) {x0 y0 x1 y1 dy : Nat}
    (h : dy < y1 - y0) :
    (pil_crop img x0 y0 x1 y1)[dy]? =
      some ((List.range (x1 - x0)).map fun dx =>
        getpix img (y0 + dy) (x0 + dx)) := by
  simp [pil_crop, List.getElem?_range h]

/-- The non-white coordinates of a cropped image, in terms of the original. -/
theorem mem_coords_pil_crop {img : Img} {x0 y0 x1 y1 dy dx : Nat} :
    (dy, dx) ∈ nonwhite_coords (pil_crop img x0 y0 x1 y1) ↔
      dy < y1 - y0 ∧ dx < x1 - x0 ∧
        pixIsWhite (getpix img (y0 + dy) (x0 + dx)) = false := by
  rw [mem_nonwhite_coords]
  constructor
  · rintro ⟨row, p, hrow, hp, hw⟩
    have hdy : dy < y1 - y0 := by
      obtain ⟨hlen, -⟩ := List.getElem?_eq_some_iff.mp hrow
      simpa [pil_crop] using hlen
    rw [pil_crop_getElem? img hdy] at hrow
    obtain rfl := Option.some.inj hrow
    have hdx : dx < x1 - x0 := by
      obtain ⟨hlen, -⟩ := List.getElem?_eq_some_iff.mp hp
      simpa using hlen
    simp only [List.getElem?_map, List.getElem?_range hdx, Option.map_some',
      Option.some.injEq] at hp
    subst hp
    exact ⟨hdy, hdx, hw⟩
  · rintro ⟨h1, h2, h3⟩
    exact ⟨_, _, pil_crop_getElem? img h1,
      by simp [List.getElem?_range h2], h3⟩

theorem adjusted_bounds_zero (y0 y1 x0 x1 : Nat) (hy : y0 ≤ y1)
    (hx : x0 ≤ x1) :
    adjusted_bounds y0 y1 x0 x1 0 0 0 0 =
      ((y0 : Int), (y1 : Int), (x0 : Int), (x1 : Int)) := by
  unfold adjusted_bounds
  simp only [Prod.mk.injEq]
  refine ⟨?_, ⟨?_, ?_, ?_⟩⟩ <;> omega

/-- With zero margins the cropper is exactly the crop to the raw bbox. -/
theorem crop_zero_eq_pil_crop {img : Img} {c : Nat × Nat}
    {cs : List (Nat × Nat)} (hc : nonwhite_coords img = c :: cs) :
    crop_nonwhite_bbox_with_margin img 0 0 0 0 =
      pil_crop img (bbox_x0 c cs) (bbox_y0 c cs) (bbox_x1 c cs)
        (bbox_y1 c cs) := by
  rw [crop_eq_of_coords_cons hc]
  have hy : bbox_y0 c cs ≤ bbox_y1 c cs := by
    have := le_trans (fold_min_le_self (cs.map Prod.fst) c.1)
      (le_fold_max_self (cs.map Prod.fst) c.1)
    unfold bbox_y0 bbox_y1
    omega
  have hx : bbox_x0 c cs ≤ bbox_x1 c cs := by
    have := le_trans (fold_min_le_self (cs.map Prod.snd) c.2)
      (le_fold_max_self (cs.map Prod.snd) c.2)
    unfold bbox_x0 bbox_x1
    omega
  rw [adjusted_bounds_zero _ _ _ _ hy hx]
  simp

theorem pil_crop_expand (img : Img) (x0 y0 x1 y1 : Nat) :
    pil_crop img x0 y0 x1 y1 =
      (List.range (y1 - y0)).map fun dy =>
        (List.range (x1 - x0)).map fun dx =>
          getpix img (y0 + dy) (x0 + dx) := rfl

/-- Cropping a rectangular grid to its full extent is the identity. -/
theorem pil_crop_self (f : Nat → Nat → Pix) (h w : Nat) :
    pil_crop ((List.range h).map fun dy =>
        (List.range w).map fun dx => f dy dx) 0 0 w h =
      (List.range h).map fun dy => (List.range w).map fun dx => f dy dx := by
  unfold pil_crop
  rw [Nat.sub_zero, Nat.sub_zero]
  apply List.map_congr_left
  intro dy hdy
  have hdy' : dy < h := List.mem_range.mp hdy
  apply List.map_congr_left
  intro dx hdx
  have hdx' : dx < w := List.mem_range.mp hdx
  simp [getpix, List.getElem?_range hdy', List.getElem?_range hdx']

/-- **C7.** Cropping with zero margins is idempotent: for every image,
applying `crop_nonwhite_bbox_with_margin` with zero margins and then
applying it again with zero margins yields the same image as applying it
once — the second pass finds a bounding box equal to the whole
already-cropped image, so no further shrinkage occurs. -/
theorem crop_zero_margin_idempotent (img : Img) :
    crop_nonwhite_bbox_with_margin
      (crop_nonwhite_bbox_with_margin img 0 0 0 0) 0 0 0 0 =
      crop_nonwhite_bbox_with_margin img 0 0 0 0 := by
  cases hc : nonwhite_coords img with
  | nil =>
    rw [crop_eq_of_coords_nil hc 0 0 0 0]
    exact crop_eq_of_coords_nil hc 0 0 0 0
  | cons c cs =>
    rw [crop_zero_eq_pil_crop hc]
    -- members of the original coordinate list land inside the cropped image
    have hmemR : ∀ q : Nat × Nat, q ∈ c :: cs →
        (q.1 - bbox_y0 c cs, q.2 - bbox_x0 c cs) ∈
          nonwhite_coords (pil_crop img (bbox_x0 c cs) (bbox_y0 c cs)
            (bbox_x1 c cs) (bbox_y1 c cs)) := by
      intro q hq
      have h1 := bbox_y0_le_of_mem hq
      have h2 := lt_bbox_y1_of_mem hq
      have h3 := bbox_x0_le_of_mem hq
      have h4 := lt_bbox_x1_of_mem hq
      apply mem_coords_pil_crop.mpr
      refine ⟨by omega, by omega, ?_⟩
      have e1 : bbox_y0 c cs + (q.1 - bbox_y0 c cs) = q.1 := by omega
      have e2 : bbox_x0 c cs + (q.2 - bbox_x0 c cs) = q.2 := by omega
      rw [e1, e2]
      exact getpix_nonwhite_of_mem (show ((q.1, q.2) : Nat × Nat) ∈
        nonwhite_coords img by rw [hc]; exact hq)
    -- the cropped image has some non-white pixel
    have hne : nonwhite_coords (pil_crop img (bbox_x0 c cs) (bbox_y0 c cs)
        (bbox_x1 c cs) (bbox_y1 c cs)) ≠ [] :=
      List.ne_nil_of_mem (hmemR c (List.mem_cons_self c cs))
    obtain ⟨c', cs', hc'⟩ := List.exists_cons_of_ne_nil hne
    -- upper bounds on the cropped image's coordinates
    have hup : ∀ q' : Nat × Nat, q' ∈ c' :: cs' →
        q'.1 < bbox_y1 c cs - bbox_y0 c cs ∧
        q'.2 < bbox_x1 c cs - bbox_x0 c cs := by
      intro q' hq'
      have hmem : ((q'.1, q'.2) : Nat × Nat) ∈
          nonwhite_coords (pil_crop img (bbox_x0 c cs) (bbox_y0 c cs)
            (bbox_x1 c cs) (bbox_y1 c cs)) := by
        rw [hc']; exact hq'
      obtain ⟨ha, hb, -⟩ := mem_coords_pil_crop.mp hmem
      exact ⟨ha, hb⟩
    -- the second bbox is the whole cropped image
    have hy0R : bbox_y0 c' cs' = 0 := by
      obtain ⟨qy0, hqy0m, hqy0⟩ := exists_mem_fst_eq_bbox_y0 c cs
      have hm : (qy0.1 - bbox_y0 c cs, qy0.2 - bbox_x0 c cs) ∈ c' :: cs' := by
        rw [← hc']; exact hmemR qy0 hqy0m
      have h6 := bbox_y0_le_of_mem hm
      simp only at h6
      omega
    have hx0R : bbox_x0 c' cs' = 0 := by
      obtain ⟨qx0, hqx0m, hqx0⟩ := exists_mem_snd_eq_bbox_x0 c cs
      have hm : (qx0.1 - bbox_y0 c cs, qx0.2 - bbox_x0 c cs) ∈ c' :: cs' := by
        rw [← hc']; exact hmemR qx0 hqx0m
      have h6 := bbox_x0_le_of_mem hm
      simp only at h6
      omega
    have hy1R : bbox_y1 c' cs' = bbox_y1 c cs - bbox_y0 c cs := by
      obtain ⟨qy1, hqy1m, hqy1⟩ := exists_mem_fst_eq_bbox_y1 c cs
      have hy0le := bbox_y0_le_of_mem hqy1m
      have hm : (qy1.1 - bbox_y0 c cs, qy1.2 - bbox_x0 c cs) ∈ c' :: cs' := by
        rw [← hc']; exact hmemR qy1 hqy1m
      have hge := lt_bbox_y1_of_mem hm
      simp only at hge
      have hle : fold_max c'.1 (cs'.map Prod.fst) ≤
          bbox_y1 c cs - bbox_y0 c cs - 1 := by
        apply fold_max_le
        · have := (hup c' (List.mem_cons_self c' cs')).1
          omega
        · intro b hb
          obtain ⟨q', hq', hq1⟩ := List.mem_map.mp hb
          have := (hup q' (List.mem_cons_of_mem c' hq')).1
          omega
      unfold bbox_y1 at *
      omega
    have hx1R : bbox_x1 c' cs' = bbox_x1 c cs - bbox_x0 c cs := by
      obtain ⟨qx1, hqx1m, hqx1⟩ := exists_mem_snd_eq_bbox_x1 c cs
      have hx0le := bbox_x0_le_of_mem hqx1m
      have hm : (qx1.1 - bbox_y0 c cs, qx1.2 - bbox_x0 c cs) ∈ c' :: cs' := by
        rw [← hc']; exact hmemR qx1 hqx1m
      have hge := lt_bbox_x1_of_mem hm
      simp only at hge
      have hle : fold_max c'.2 (cs'.map Prod.snd) ≤
          bbox_x1 c cs - bbox_x0 c cs - 1 := by
        apply fold_max_le
        · have := (hup c' (List.mem_cons_self c' cs')).2
          omega
        · intro b hb
          obtain ⟨q', hq', hq1⟩ := List.mem_map.mp hb
          have := (hup q' (List.mem_cons_of_mem c' hq')).2
          omega
      unfold bbox_x1 at *
      omega
    rw [crop_zero_eq_pil_crop hc', hy0R, hx0R, hy1R, hx1R,
      pil_crop_expand img (bbox_x0 c cs) (bbox_y0 c cs) (bbox_x1 c cs)
        (bbox_y1 c cs)]
    exact pil_crop_self
      (fun dy dx => getpix img (bbox_y0 c cs + dy) (bbox_x0 c cs + dx))
      (bbox_y1 c cs - bbox_y0 c cs) (bbox_x1 c cs - bbox_x0 c cs)

/-! ## Batch output filenames (shot.py lines 320–331 and 487–498) -/

/-- Decimal digits of `n`, least significant first, by structural recursion
on a fuel argument (`fuel ≥ n` suffices); agrees with `Nat.digits 10`. -/
def py_digits_aux : Nat → Nat → List Nat
  | _, 0 => []
  | 0, _ + 1 => []
  | fuel + 1, n + 1 => ((n + 1) % 10) :: py_digits_aux fuel ((n + 1) / 10)

/-- The decimal digit string of Python `str(n)`, most significant digit
first, as `Nat` digits (`str(0) = "0"`). -/
def py_digits (n : Nat) : List Nat :=
  if n = 0 then [0] else (py_digits_aux n n).reverse

/-- The ASCII character of a decimal digit. -/
def digit_char (d : Nat) : Char := Char.ofNat (48 + d)

/-- Python `str(n)` for a natural number, as a character list. -/
def py_str (n : Nat) : List Char := (py_digits n).map digit_char

/-- Python `str.zfill(w)`: left-pad with `'0'` to width `w`. -/
def zfill (s : List Char) (w : Nat) : List Char :=
  List.replicate (w - s.length) '0' ++ s

/-- The output filename `f"{book}_{str(i).zfill(pad_width)}.png"`
(shot.py line 329; identically line 496 with `file_prefix`). -/
def mk_filename (book : String) (i pad : Nat) : List Char :=
  book.data ++ "_".data ++ zfill (py_str i) pad ++ ".png".data

/-- The filenames generated by one batch run: `pad_width` is
`len(str(start + no - 1))` and the pages are `range(start, start + no)`
(shot.py lines 320–331). -/
def batch_filenames (book : String) (start no : Nat) : List (List Char) :=
  (List.range no).map fun k =>
    mk_filename book (start + k) (py_str (start + no - 1)).length

theorem py_digits_aux_eq_digits :
    ∀ fuel n, n ≤ fuel → py_digits_aux fuel n = Nat.digits 10 n := by
  intro fuel
  induction fuel with
  | zero =>
    intro n hn
    interval_cases n
    simp [py_digits_aux]
  | succ fuel ih =>
    intro n hn
    match n with
    | 0 => simp [py_digits_aux]
    | m + 1 =>
      rw [Nat.digits_def' (by norm_num : (1:Nat) < 10) (Nat.succ_pos m)]
      show ((m + 1) % 10) :: py_digits_aux fuel ((m + 1) / 10) = _
      rw [ih ((m + 1) / 10) (by
        have := Nat.div_lt_self (Nat.succ_pos m) (by norm_num : (1:Nat) < 10)
        omega)]

/-- Bridge to the Mathlib characterisation of decimal digits. -/
theorem py_digits_eq (n : Nat) :
    py_digits n = if n = 0 then [0] else (Nat.digits 10 n).reverse := by
  unfold py_digits
  by_cases h : n = 0
  · simp [h]
  · rw [if_neg h, if_neg h, py_digits_aux_eq_digits n n (Nat.le_refl n)]

/-- The numeric value of a digit list written most significant first. -/
def valM : List Nat → Nat
  | [] => 0
  | d :: l => d * 10 ^ l.length + valM l

theorem valM_append_singleton (M : List Nat) (d : Nat) :
    valM (M ++ [d]) = 10 * valM M + d := by
  induction M with
  | nil => simp [valM]
  | cons m M ih =>
    show valM (m :: (M ++ [d])) = 10 * valM (m :: M) + d
    simp only [valM, ih, List.length_append, List.length_cons,
      List.length_nil]
    ring

theorem valM_reverse_digits (L : List Nat) :
    valM L.reverse = Nat.ofDigits 10 L := by
  induction L with
  | nil => simp [valM]
  | cons d L ih =>
    rw [List.reverse_cons, valM_append_singleton, ih, Nat.ofDigits_cons]
    ring

theorem valM_py_digits (n : Nat) : valM (py_digits n) = n := by
  rw [py_digits_eq]
  by_cases h : n = 0
  · subst h; simp [valM]
  · rw [if_neg h, valM_reverse_digits, Nat.ofDigits_digits]

theorem valM_replicate_zero (k : Nat) (l : List Nat) :
    valM (List.replicate k 0 ++ l) = valM l := by
  induction k with
  | zero => simp
  | succ k ih => simpa [List.replicate_succ, valM] using ih

theorem valM_lt (l : List Nat) (h : ∀ d ∈ l, d ≤ 9) :
    valM l < 10 ^ l.length := by
  induction l with
  | nil => simp [valM]
  | cons d l ih =>
    have hd : d ≤ 9 := h d (List.mem_cons_self d l)
    have hl := ih (fun x hx => h x (List.mem_cons_of_mem d hx))
    have h2 : d * 10 ^ l.length ≤ 9 * 10 ^ l.length :=
      Nat.mul_le_mul_right _ hd
    simp only [valM, List.length_cons, pow_succ]
    omega

theorem py_digits_le_nine (n : Nat) : ∀ d ∈ py_digits n, d ≤ 9 := by
  intro d hd
  rw [py_digits_eq] at hd
  by_cases h : n = 0
  · rw [if_pos h] at hd
    simp at hd
    omega
  · rw [if_neg h, List.mem_reverse] at hd
    have := Nat.digits_lt_base (by norm_num) hd
    omega

theorem py_digits_length_mono {a b : Nat} (h : a ≤ b) :
    (py_digits a).length ≤ (py_digits b).length := by
  rw [py_digits_eq, py_digits_eq]
  by_cases ha : a = 0
  · rw [if_pos ha]
    by_cases hb : b = 0
    · rw [if_pos hb]
    · rw [if_neg hb]
      have h1 : Nat.digits 10 b ≠ [] := Nat.digits_ne_nil_iff_ne_zero.mpr hb
      have h2 := List.length_pos.mpr h1
      simp only [List.length_cons, List.length_nil, List.length_reverse]
      omega
  · have hb : b ≠ 0 := by omega
    rw [if_neg ha, if_neg hb]
    simp only [List.length_reverse]
    rw [Nat.digits_len 10 a (by norm_num) ha, Nat.digits_len 10 b (by norm_num) hb]
    have := Nat.log_mono_right (b := 10) h
    omega

theorem py_str_length (n : Nat) : (py_str n).length = (py_digits n).length := by
  simp [py_str]

theorem py_str_length_mono {a b : Nat} (h : a ≤ b) :
    (py_str a).length ≤ (py_str b).length := by
  rw [py_str_length, py_str_length]
  exact py_digits_length_mono h

/-- `str(n).zfill(w)` at the digit level. -/
def pad_digits (n w : Nat) : List Nat :=
  List.replicate (w - (py_digits n).length) 0 ++ py_digits n

theorem pad_digits_length {n w : Nat} (h : (py_digits n).length ≤ w) :
    (pad_digits n w).length = w := by
  simp only [pad_digits, List.length_append, List.length_replicate]
  omega

theorem pad_digits_le_nine (n w : Nat) : ∀ d ∈ pad_digits n w, d ≤ 9 := by
  intro d hd
  rcases List.mem_append.mp hd with h | h
  · have := List.eq_of_mem_replicate h
    omega
  · exact py_digits_le_nine n d h

theorem valM_pad_digits (n w : Nat) : valM (pad_digits n w) = n := by
  rw [pad_digits, valM_replicate_zero, valM_py_digits]

theorem digit_char_zero : digit_char 0 = '0' := by decide

theorem zfill_py_str_eq (n w : Nat) :
    zfill (py_str n) w = (pad_digits n w).map digit_char := by
  unfold zfill pad_digits py_str
  rw [List.map_append, List.map_replicate, digit_char_zero, List.length_map]

theorem digit_char_lt_of_lt : ∀ a < 10, ∀ b < 10, a < b →
    digit_char a < digit_char b := by decide

/-- Strict lexicographic comparison of equal-length bounded digit lists
follows numeric value. -/
theorem lex_of_valM_lt : ∀ (l₁ l₂ : List Nat), l₁.length = l₂.length →
    (∀ d ∈ l₂, d ≤ 9) → valM l₁ < valM l₂ → List.Lex (· < ·) l₁ l₂ := by
  intro l₁
  induction l₁ with
  | nil =>
    intro l₂ hlen _ hv
    cases l₂ with
    | nil => simp [valM] at hv
    | cons d t => simp at hlen
  | cons d₁ t₁ ih =>
    intro l₂ hlen h9 hv
    cases l₂ with
    | nil => simp at hlen
    | cons d₂ t₂ =>
      have hlen' : t₁.length = t₂.length := by simpa using hlen
      rcases Nat.lt_trichotomy d₁ d₂ with h | h | h
      · exact List.Lex.rel h
      · subst h
        apply List.Lex.cons
        apply ih t₂ hlen' (fun x hx => h9 x (List.mem_cons_of_mem _ hx))
        simp only [valM] at hv
        rw [hlen'] at hv
        omega
      · exfalso
        have hb : valM t₂ < 10 ^ t₂.length :=
          valM_lt t₂ (fun x hx => h9 x (List.mem_cons_of_mem _ hx))
        simp only [valM] at hv
        rw [hlen'] at hv
        have h1 : (d₂ + 1) * 10 ^ t₂.length ≤ d₁ * 10 ^ t₂.length :=
          Nat.mul_le_mul_right _ (by omega)
        have h2 : (d₂ + 1) * 10 ^ t₂.length =
            d₂ * 10 ^ t₂.length + 10 ^ t₂.length := by ring
        omega

theorem lex_map_digit_char : ∀ {l₁ l₂ : List Nat}, List.Lex (· < ·) l₁ l₂ →
    (∀ d ∈ l₁, d ≤ 9) → (∀ d ∈ l₂, d ≤ 9) →
    List.Lex (· < ·) (l₁.map digit_char) (l₂.map digit_char) := by
  intro l₁ l₂ h
  induction h with
  | nil =>
    intro _ _
    simp only [List.map_nil, List.map_cons]
    exact List.Lex.nil
  | cons hlex ih =>
    intro h1 h2
    simp only [List.map_cons]
    exact List.Lex.cons (ih (fun d hd => h1 d (List.mem_cons_of_mem _ hd))
      (fun d hd => h2 d (List.mem_cons_of_mem _ hd)))
  | rel hr =>
    intro h1 h2
    simp only [List.map_cons]
    refine List.Lex.rel (digit_char_lt_of_lt _ ?_ _ ?_ hr)
    · have := h1 _ (List.mem_cons_self _ _)
      omega
    · have := h2 _ (List.mem_cons_self _ _)
      omega

theorem lex_append_left {α : Type} {r : α → α → Prop} (p : List α)
    {l₁ l₂ : List α} (h : List.Lex r l₁ l₂) :
    List.Lex r (p ++ l₁) (p ++ l₂) := by
  induction p with
  | nil => exact h
  | cons a p ih => exact List.Lex.cons ih

theorem lex_append_right_of_length_eq {α : Type} {r : α → α → Prop} :
    ∀ {l₁ l₂ : List α}, List.Lex r l₁ l₂ → l₁.length = l₂.length →
      ∀ (s : List α), List.Lex r (l₁ ++ s) (l₂ ++ s) := by
  intro l₁ l₂ h
  induction h with
  | nil =>
    intro hlen
    simp at hlen
  | cons hlex ih =>
    intro hlen s
    simp only [List.cons_append]
    exact List.Lex.cons (ih (by simpa using hlen) s)
  | rel hr =>
    intro _ s
    simp only [List.cons_append]
    exact List.Lex.rel hr

theorem zfill_length (s : List Char) (w : Nat) :
    (zfill s w).length = max w s.length := by
  simp only [zfill, List.length_append, List.length_replicate]
  omega

/-- Filenames of numerically smaller pages are lexicographically smaller,
given a sufficient shared pad width. -/
theorem mk_filename_lex (book : String) {i j pad : Nat} (hij : i < j)
    (hip : (py_str i).length ≤ pad) (hjp : (py_str j).length ≤ pad) :
    List.Lex (· < ·) (mk_filename book i pad) (mk_filename book j pad) := by
  unfold mk_filename
  apply lex_append_right_of_length_eq ?hlex ?hl ".png".data
  case hl =>
    simp only [List.length_append, zfill_length]
    omega
  case hlex =>
    apply lex_append_left
    rw [zfill_py_str_eq, zfill_py_str_eq]
    apply lex_map_digit_char ?_ (pad_digits_le_nine i pad) (pad_digits_le_nine j pad)
    apply lex_of_valM_lt
    · rw [pad_digits_length (by rw [← py_str_length]; exact hip),
        pad_digits_length (by rw [← py_str_length]; exact hjp)]
    · exact pad_digits_le_nine j pad
    · rw [valM_pad_digits, valM_pad_digits]
      exact hij

/-- **C1.** For every batch run with `no ≥ 1` pages starting at page
`start ≥ 1`, the produced output filenames are exactly
`{book}_{i}.png` for `i` in the closed range `[start, start + no - 1]`,
with `i` zero-padded to `len(str(start + no - 1))` digits; they are
generated in strictly increasing numeric (= capture) order and are strictly
increasing lexicographically, so lexicographic order of the filenames
equals numeric page order. -/
theorem batch_filenames_spec (book : String) (start no : Nat)
    (hs : 1 ≤ start) (hn : 1 ≤ no) :
    (∀ name : List Char, name ∈ batch_filenames book start no ↔
      ∃ i, start ≤ i ∧ i ≤ start + no - 1 ∧
        name = mk_filename book i (py_str (start + no - 1)).length) ∧
    List.Pairwise (fun a b => List.Lex (· < ·) a b)
      (batch_filenames book start no) := by
  constructor
  · intro name
    unfold batch_filenames
    simp only [List.mem_map, List.mem_range]
    constructor
    · rintro ⟨k, hk, rfl⟩
      exact ⟨start + k, by omega, by omega, rfl⟩
    · rintro ⟨i, h1, h2, rfl⟩
      refine ⟨i - start, by omega, ?_⟩
      have hi : start + (i - start) = i := by omega
      rw [hi]
  · unfold batch_filenames
    rw [List.pairwise_map]
    apply List.Pairwise.imp_of_mem ?_ (List.pairwise_lt_range no)
    intro a b ha hb hab
    have ha' := List.mem_range.mp ha
    have hb' := List.mem_range.mp hb
    apply mk_filename_lex book (by omega)
    · exact py_str_length_mono (by omega)
    · exact py_str_length_mono (by omega)

/-- Witness for C1: the spec's own example `start = 8, no = 3` produces
`b_08.png, b_09.png, b_10.png` (pad width 2), in increasing lexicographic
order. -/
theorem batch_filenames_spec_witness :
    batch_filenames "b" 8 3 =
      ["b_08.png".data, "b_09.png".data, "b_10.png".data] ∧
    List.Pairwise (fun a b => List.Lex (· < ·) a b)
      (batch_filenames "b" 8 3) :=
  ⟨by decide, (batch_filenames_spec "b" 8 3 (by decide) (by decide)).2⟩

/-! ## Batch capture loop and advance actions (shot.py lines 290–344) -/

/-- The dispatch result of the configured `--next` action. -/
inductive NextAct where
  | click (x y : Int) : NextAct
  | key (k : List Char) : NextAct
  | error : NextAct
deriving DecidableEq

/-- Python `s.split(',')` on a character list: split at every comma
(`"".split(',') == ['']`). -/
def split_commas : List Char → List (List Char)
  | [] => [[]]
  | c :: rest =>
    if c = ',' then [] :: split_commas rest
    else
      match split_commas rest with
      | [] => [[c]]
      | h :: t => (c :: h) :: t

/-- Value of a nonempty all-digit character list, else `none`. -/
def dec_digits_val (cs : List Char) : Option Nat :=
  if cs ≠ [] ∧ cs.all Char.isDigit then
    some (cs.foldl (fun a c => 10 * a + (c.toNat - 48)) 0)
  else none

/-- Python `int(s)` as used on the parts of an `"x,y"` advance spec:
surrounding whitespace is ignored, then an optional sign followed by
decimal digits (digit-group underscores are not modelled). -/
def py_int (cs : List Char) : Option Int :=
  match ((cs.dropWhile Char.isWhitespace).reverse.dropWhile
      Char.isWhitespace).reverse with
  | '-' :: rest => (dec_digits_val rest).map (fun n => -(n : Int))
  | '+' :: rest => (dec_digits_val rest).map (fun n => (n : Int))
  | t => (dec_digits_val t).map (fun n => (n : Int))

/-- `nx, ny = map(int, next_action.split(','))` (shot.py line 335):
succeeds exactly when the split has two parts, both integers. -/
def parse_click (s : List Char) : Option (Int × Int) :=
  match (split_commas s).mapM py_int with
  | some [x, y] => some (x, y)
  | _ => none

/-- Dispatch of the `--next` action (shot.py lines 333–341): a comma selects
the click form, whose parse failure is fatal; otherwise a key press. -/
def dispatch_next (s : List Char) : NextAct :=
  if s.contains ',' then
    match parse_click s with
    | some (x, y) => NextAct.click x y
    | none => NextAct.error
  else NextAct.key s

/-- Externally visible events of one batch run. -/
inductive BatchEvent where
  | activate : BatchEvent
  | capture (page : Nat) (ok : Bool) : BatchEvent
  | advanceClick (x y : Int) : BatchEvent
  | advanceKey (k : List Char) : BatchEvent
  | advanceError : BatchEvent
deriving DecidableEq

/-- The loop `for i in range(start, start + no)` of `batch_capture`
(shot.py lines 323–342): each iteration activates the app, attempts the
page capture — the Boolean result of `capture_window` is ignored and the
output path appended regardless — then performs the advance action
unconditionally; a malformed `"x,y"` spec raises and aborts the loop. -/
def batch_steps (capOk : Nat → Bool) (next : List Char) :
    Nat → Nat → List BatchEvent
  | _, 0 => []
  | i, n + 1 =>
    BatchEvent.activate :: BatchEvent.capture i (capOk i) ::
      (match dispatch_next next with
       | NextAct.click x y =>
           BatchEvent.advanceClick x y :: batch_steps capOk next (i + 1) n
       | NextAct.key k =>
           BatchEvent.advanceKey k :: batch_steps capOk next (i + 1) n
       | NextAct.error => [BatchEvent.advanceError])

/-- `batch_capture` (shot.py lines 290–344): the dependency check and window
lookup raise before the loop; afterwards the loop events happen. -/
def batch_capture (deps winFound : Bool) (capOk : Nat → Bool)
    (next : List Char) (start no : Nat) : Except String (List BatchEvent) :=
  if !deps then Except.error "Missing dependencies or not macOS"
  else if !winFound then Except.error "No matching window found"
  else Except.ok (batch_steps capOk next start no)

/-- An advance action that was actually performed (click or key press). -/
def is_advance : BatchEvent → Bool
  | BatchEvent.advanceClick _ _ => true
  | BatchEvent.advanceKey _ => true
  | _ => false

/-- Number of performed advance actions in a trace. -/
def count_advances (es : List BatchEvent) : Nat := es.countP is_advance

/-- The trace event of a successfully dispatched advance action. -/
def advance_event : NextAct → BatchEvent
  | NextAct.click x y => BatchEvent.advanceClick x y
  | NextAct.key k => BatchEvent.advanceKey k
  | NextAct.error => BatchEvent.advanceError

/-- Whether a trace event is a capture. -/
def is_capture : BatchEvent → Bool
  | BatchEvent.capture _ _ => true
  | _ => false

/-- The capture events of a trace, in order. -/
def captures (es : List BatchEvent) : List BatchEvent :=
  es.filter is_capture

/-- **C2, counterexample.** The claim says the advance action is issued
only when the captured page is not the last one, i.e. `count - 1` times.
In a 1-page run the code still issues it once, not `1 - 1 = 0` times: the
loop body performs the advance unconditionally (shot.py lines 333–341). -/
theorem advance_after_last_page_counterexample :
    ¬ count_advances (batch_steps (fun _ => true) "right".data 1 1) = 1 - 1 := by
  decide

/-- **C2 (amended).** The advance action is performed after every capture,
including the last page, so a completed run of `no` pages issues it exactly
`no` times (not `no - 1`); every performed advance is the dispatch of the
configured string, which is a pointer click when the string contains a
comma and splits into two integer parts, a key press when it contains no
comma, and a fatal error (aborting the loop) when it contains a comma but
does not parse. -/
theorem batch_advance_dispatch :
    (∀ (capOk : Nat → Bool) (next : List Char) (start no : Nat),
      dispatch_next next ≠ NextAct.error →
      count_advances (batch_steps capOk next start no) = no) ∧
    (∀ (capOk : Nat → Bool) (next : List Char) (start no : Nat),
      ∀ e ∈ batch_steps capOk next start no,
        is_advance e = true → e = advance_event (dispatch_next next)) ∧
    (∀ next : List Char, next.contains ',' = false →
      dispatch_next next = NextAct.key next) ∧
    (∀ (next : List Char) (x y : Int), next.contains ',' = true →
      parse_click next = some (x, y) →
      dispatch_next next = NextAct.click x y) ∧
    (∀ next : List Char, next.contains ',' = true → parse_click next = none →
      dispatch_next next = NextAct.error) := by
  refine ⟨?_, ?_, ?_, ?_, ?_⟩
  · intro capOk next start no
    induction no generalizing start with
    | zero => intro _; rfl
    | succ n ih =>
      intro h
      have hrec := ih (start + 1) h
      unfold count_advances at hrec ⊢
      cases hd : dispatch_next next with
      | error => exact absurd hd h
      | click x y =>
        simp [batch_steps, hd, List.countP_cons, is_advance, hrec]
      | key k =>
        simp [batch_steps, hd, List.countP_cons, is_advance, hrec]
  · intro capOk next start no
    induction no generalizing start with
    | zero => intro e he; cases he
    | succ n ih =>
      intro e he hadv
      cases hd : dispatch_next next with
      | error =>
        simp only [batch_steps, hd, List.mem_cons, List.not_mem_nil,
          or_false] at he
        rcases he with rfl | rfl | rfl
        · simp [is_advance] at hadv
        · simp [is_advance] at hadv
        · rfl
      | click x y =>
        simp only [batch_steps, hd, List.mem_cons] at he
        rcases he with rfl | rfl | rfl | hmem
        · simp [is_advance] at hadv
        · simp [is_advance] at hadv
        · rfl
        · rw [hd] at ih
          exact ih (start + 1) e hmem hadv
      | key k =>
        simp only [batch_steps, hd, List.mem_cons] at he
        rcases he with rfl | rfl | rfl | hmem
        · simp [is_advance] at hadv
        · simp [is_advance] at hadv
        · rfl
        · rw [hd] at ih
          exact ih (start + 1) e hmem hadv
  · intro next h
    unfold dispatch_next
    rw [h]
    simp
  · intro next x y h hp
    unfold dispatch_next
    rw [h, hp]
    simp
  · intro next h hp
    unfold dispatch_next
    rw [h, hp]
    simp

/-- Witness for the amended C2: a 3-page run with `--next right` performs 3
advance key presses, and `--next 300,400` dispatches as a click. -/
theorem batch_advance_dispatch_witness :
    count_advances (batch_steps (fun _ => true) "right".data 1 3) = 3 ∧
    dispatch_next "300,400".data = NextAct.click 300 400 :=
  ⟨batch_advance_dispatch.1 (fun _ => true) "right".data 1 3 (by decide),
   by decide⟩

/-- **C3, counterexample.** The claim says a failed page capture is fatal
and no later page is captured. In a 2-page run where capturing page 1
fails, the code still attempts and records page 2: `capture_window`
swallows the failure (returns `False`) and the loop never looks at the
result (shot.py lines 330–331). -/
theorem capture_failure_continues_counterexample :
    BatchEvent.capture 1 false ∈
      batch_steps (fun i => decide (i ≠ 1)) "right".data 1 2 ∧
    BatchEvent.capture 2 true ∈
      batch_steps (fun i => decide (i ≠ 1)) "right".data 1 2 := by
  decide

/-- **C3 (amended).** Only the pre-loop checks are fatal: with the
screen-capture capability missing, `batch_capture` raises before any page
is captured. During the loop, a per-page capture failure does not stop the
run — every page in the range is attempted regardless of earlier pages'
results (and its path is recorded), provided only that the advance spec is
well-formed. -/
theorem batch_capture_failure_behavior :
    (∀ (capOk : Nat → Bool) (next : List Char) (start no : Nat),
      dispatch_next next ≠ NextAct.error →
      captures (batch_steps capOk next start no) =
        (List.range no).map fun k =>
          BatchEvent.capture (start + k) (capOk (start + k))) ∧
    (∀ (winFound : Bool) (capOk : Nat → Bool) (next : List Char)
      (start no : Nat),
      batch_capture false winFound capOk next start no =
        Except.error "Missing dependencies or not macOS") := by
  constructor
  · intro capOk next start no
    induction no generalizing start with
    | zero => intro _; rfl
    | succ n ih =>
      intro h
      have hrec := ih (start + 1) h
      unfold captures at hrec ⊢
      have hR : ((List.range (n + 1)).map fun k =>
          BatchEvent.capture (start + k) (capOk (start + k))) =
          BatchEvent.capture start (capOk start) ::
            (List.range n).map fun k =>
              BatchEvent.capture (start + 1 + k) (capOk (start + 1 + k)) := by
        rw [List.range_succ_eq_map]
        simp only [List.map_cons, List.map_map, Nat.add_zero]
        congr 1
        apply List.map_congr_left
        intro k _
        show BatchEvent.capture (start + (k + 1)) (capOk (start + (k + 1))) =
          BatchEvent.capture (start + 1 + k) (capOk (start + 1 + k))
        rw [show start + (k + 1) = start + 1 + k from by omega]
      rw [hR]
      cases hd : dispatch_next next with
      | error => exact absurd hd h
      | click x y =>
        simp [batch_steps, hd, List.filter_cons, is_capture, hrec]
      | key k =>
        simp [batch_steps, hd, List.filter_cons, is_capture, hrec]
  · intro winFound capOk next start no
    rfl

/-- Witness for the amended C3: the 2-page run with a failing page 1 still
captures both pages, in order. -/
theorem batch_capture_failure_behavior_witness :
    captures (batch_steps (fun i => decide (i ≠ 1)) "right".data 1 2) =
      [BatchEvent.capture 1 false, BatchEvent.capture 2 true] := by
  rw [batch_capture_failure_behavior.1 (fun i => decide (i ≠ 1)) "right".data
    1 2 (by decide)]
  decide

/-! ## Region capture (shot.py lines 211–232) -/

/-- Externally visible steps of `WindowCapture.capture_window`. -/
inductive CapStep where
  | errNoPyautogui : CapStep
  | screenshot (x y w h : Int) : CapStep
  | cropSave : CapStep
deriving DecidableEq

/-- `WindowCapture.capture_window` (shot.py lines 211–232): when pyautogui
is available, the screenshot of the left third — region
`(x, y, width // 3, height)` — is attempted unconditionally, then cropped
and saved; there is no region-size validation anywhere, and exceptions are
caught and turned into a `False` return value only after the attempt. -/
def capture_window (avail : Bool) (x y width height : Int) : List CapStep :=
  if !avail then [CapStep.errNoPyautogui]
  else [CapStep.screenshot x y (Int.fdiv width 3) height, CapStep.cropSave]

/-- **C4, counterexample.** The claim says a capture with a non-positive
region width is rejected before any capture attempt, with no screenshot
taken. For a window of width 2 the region width is `2 // 3 = 0`, yet the
screenshot call is still made. -/
theorem capture_window_no_region_check_counterexample :
    CapStep.screenshot 0 0 0 5 ∈ capture_window true 0 0 2 5 := by decide

/-- **C4 (amended).** `capture_window` performs no positivity check on the
capture region: whenever pyautogui is available it attempts the screenshot
with region `(x, y, width // 3, height)` — even when that width is zero or
negative — and margins are not subtracted from the capture region at all
(they are applied later by the cropper, which clamps); when pyautogui is
unavailable it fails before any capture attempt. -/
theorem capture_window_always_attempts :
    ∀ (x y width height : Int),
      capture_window true x y width height =
        [CapStep.screenshot x y (Int.fdiv width 3) height, CapStep.cropSave] ∧
      capture_window false x y width height = [CapStep.errNoPyautogui] :=
  fun _ _ _ _ => ⟨rfl, rfl⟩

/-! ## Window matching (shot.py lines 102–163) -/

/-- One enumerated window: process name, window title, geometry. -/
structure WinInfo where
  proc : List Char
  title : List Char
  x : Int
  y : Int
  w : Int
  h : Int
deriving DecidableEq

/-- Python `s.lower()` on window/selector names (ASCII case folding). -/
def py_lower (s : List Char) : List Char := s.map Char.toLower

/-- One selector test `sel and name.lower() == sel.lower()`
(shot.py lines 158 and 160): `None` and the empty string are falsy; the
comparison is full-string equality after lowercasing — exact match only. -/
def sel_matches (sel : Option (List Char)) (name : List Char) : Bool :=
  match sel with
  | none => false
  | some s => !s.isEmpty && py_lower name == py_lower s

/-- The matching loop of `WindowCapture.get_window_info`
(shot.py lines 157–163): first window whose process name matches the app
selector or whose title matches the title selector, else `None`. -/
def get_window_info : List WinInfo → Option (List Char) → Option (List Char) →
    Option WinInfo
  | [], _, _ => none
  | w :: ws, a, t =>
    if sel_matches a w.proc then some w
    else if sel_matches t w.title then some w
    else get_window_info ws a t

/-- **C8.** The window locator returns a window only when a supplied
selector equals the process name or the window title under exact
case-insensitive equality — it is precisely `find?` of that predicate, so
the first such match in enumeration order is returned and `none` results
iff no window matches exactly (never a substring match). In particular
`"safari"` matches a window named `"Safari"` but not `"Safari Preview"`. -/
theorem get_window_info_exact :
    (∀ (ws : List WinInfo) (a t : Option (List Char)),
      get_window_info ws a t =
        ws.find? fun w => sel_matches a w.proc || sel_matches t w.title) ∧
    sel_matches (some "safari".data) "Safari".data = true ∧
    sel_matches (some "safari".data) "Safari Preview".data = false := by
  refine ⟨?_, by decide, by decide⟩
  intro ws a t
  induction ws with
  | nil => rfl
  | cons w ws ih =>
    by_cases h1 : sel_matches a w.proc
    · rw [List.find?_cons_of_pos _ (by simp [h1])]
      simp [get_window_info, h1]
    · by_cases h2 : sel_matches t w.title
      · rw [List.find?_cons_of_pos _ (by simp [h1, h2])]
        simp [get_window_info, h1, h2]
      · rw [List.find?_cons_of_neg _ (by simp [h1, h2])]
        simp [get_window_info, h1, h2, ih]

/-! ## OCR directory pass with rate-limit retry (llm_ocr.py lines 103–139) -/

/-- Result of one `perform_mistral_ocr` call: `none` models an API error
(`None`), `some "RATE_LIMIT"` the HTTP-429 sentinel, any other `some t`
the extracted text. -/
abbrev OcrResult := Option String

/-- `text == "RATE_LIMIT"` (llm_ocr.py line 118). -/
def is_rate_limited (r : OcrResult) : Bool := r == some "RATE_LIMIT"

/-- First-pass save test `elif text:` (llm_ocr.py line 120) — reached only
when the sentinel test failed, and true iff the text is truthy. -/
def save1_cond (r : OcrResult) : Bool :=
  match r with
  | some t => !(t == "RATE_LIMIT") && !(t == "")
  | none => false

/-- Retry-pass save test `if text and text != "RATE_LIMIT":`
(llm_ocr.py line 133). -/
def retry_save_cond (r : OcrResult) : Bool :=
  match r with
  | some t => !(t == "") && !(t == "RATE_LIMIT")
  | none => false

/-- First pass over the directory (llm_ocr.py lines 111–125): skip items
whose output exists, call the OCR once for the rest, save usable text,
defer rate-limited items. Returns (calls, saved, retry list), each in
encounter order. -/
def first_pass (txt_exists : String → Bool) (ocr1 : String → OcrResult) :
    List String → List String × List String × List String
  | [] => ([], [], [])
  | p :: ps =>
    let rest := first_pass txt_exists ocr1 ps
    if txt_exists p then rest
    else if is_rate_limited (ocr1 p) then
      (p :: rest.1, rest.2.1, p :: rest.2.2)
    else if save1_cond (ocr1 p) then
      (p :: rest.1, p :: rest.2.1, rest.2.2)
    else
      (p :: rest.1, rest.2.1, rest.2.2)

/-- Retry pass over the deferred items (llm_ocr.py lines 129–139): one
more call each; still-failing items are reported and the loop continues.
Returns (calls, saved, failed). -/
def retry_pass (ocr2 : String → OcrResult) :
    List String → List String × List String × List String
  | [] => ([], [], [])
  | p :: ps =>
    let rest := retry_pass ocr2 ps
    if retry_save_cond (ocr2 p) then
      (p :: rest.1, p :: rest.2.1, rest.2.2)
    else
      (p :: rest.1, rest.2.1, p :: rest.2.2)

/-- Observable events of the directory run. -/
inductive OcrEvent where
  | call1 (p : String) : OcrEvent
  | backoffSleep : OcrEvent
  | call2 (p : String) : OcrEvent
deriving DecidableEq

/-- Outcome of the directory branch of `main` (llm_ocr.py lines 103–139):
the retry list, the ordered trace of remote calls (with the fixed 3s
back-off sleep before any retries), the saved outputs and the terminal
per-item failures. -/
structure OcrRun where
  retryList : List String
  trace : List OcrEvent
  saved : List String
  failed : List String

/-- The directory run: first pass, then — only if items were deferred —
one back-off sleep followed by exactly one retry per deferred item. -/
def ocr_dir_run (txt_exists : String → Bool) (ocr1 ocr2 : String → OcrResult)
    (pngs : List String) : OcrRun :=
  let fp := first_pass txt_exists ocr1 pngs
  let rp := retry_pass ocr2 fp.2.2
  { retryList := fp.2.2
    trace := fp.1.map OcrEvent.call1 ++
      (if fp.2.2 = [] then []
       else OcrEvent.backoffSleep :: rp.1.map OcrEvent.call2)
    saved := fp.2.1 ++ rp.2.1
    failed := rp.2.2 }

theorem first_pass_eq (txt_exists : String → Bool)
    (ocr1 : String → OcrResult) :
    ∀ pngs : List String,
      first_pass txt_exists ocr1 pngs =
        ((pngs.filter fun p => !txt_exists p),
         (pngs.filter fun p => !txt_exists p).filter
           (fun p => save1_cond (ocr1 p)),
         (pngs.filter fun p => !txt_exists p).filter
           (fun p => is_rate_limited (ocr1 p))) := by
  intro pngs
  induction pngs with
  | nil => rfl
  | cons p ps ih =>
    by_cases he : txt_exists p
    · simp [first_pass, List.filter_cons, he, ih]
    · by_cases hrl : is_rate_limited (ocr1 p)
      · have hs : save1_cond (ocr1 p) = false := by
          unfold is_rate_limited at hrl
          unfold save1_cond
          cases hr : ocr1 p with
          | none => rfl
          | some t =>
            rw [hr] at hrl
            simp at hrl
            simp [hrl]
        simp [first_pass, List.filter_cons, he, hrl, hs, ih]
      · by_cases hs : save1_cond (ocr1 p)
        · simp [first_pass, List.filter_cons, he, hrl, hs, ih]
        · simp [first_pass, List.filter_cons, he, hrl, hs, ih]

theorem retry_pass_eq (ocr2 : String → OcrResult) :
    ∀ l : List String,
      retry_pass ocr2 l =
        (l, l.filter (fun p => retry_save_cond (ocr2 p)),
         l.filter (fun p => !retry_save_cond (ocr2 p))) := by
  intro l
  induction l with
  | nil => rfl
  | cons p ps ih =>
    by_cases hs : retry_save_cond (ocr2 p)
    · simp [retry_pass, List.filter_cons, hs, ih]
    · simp [retry_pass, List.filter_cons, hs, ih]

/-- **C9.** For a directory of items of which, among those actually
processed (no pre-existing output), exactly the rate-limited ones are
deferred: the first pass calls each processed item once in order; if any
were deferred the fixed back-off sleep happens and then exactly the
deferred items are retried, exactly once each, in order; items still
rate-limited or otherwise failing on retry are reported as terminal
failures for those items only, and the remaining items — processed
successfully or failed non-rate-limited on the first pass — are neither
retried nor affected. -/
theorem ocr_retry_policy (txt_exists : String → Bool)
    (ocr1 ocr2 : String → OcrResult) (pngs : List String) :
    (ocr_dir_run txt_exists ocr1 ocr2 pngs).retryList =
      ((pngs.filter fun p => !txt_exists p).filter
        fun p => is_rate_limited (ocr1 p)) ∧
    (ocr_dir_run txt_exists ocr1 ocr2 pngs).trace =
      ((pngs.filter fun p => !txt_exists p).map OcrEvent.call1 ++
        (if ((pngs.filter fun p => !txt_exists p).filter
            fun p => is_rate_limited (ocr1 p)) = [] then []
         else OcrEvent.backoffSleep ::
           ((pngs.filter fun p => !txt_exists p).filter
             fun p => is_rate_limited (ocr1 p)).map OcrEvent.call2)) ∧
    (ocr_dir_run txt_exists ocr1 ocr2 pngs).saved =
      ((pngs.filter fun p => !txt_exists p).filter
        fun p => save1_cond (ocr1 p)) ++
      ((pngs.filter fun p => !txt_exists p).filter
        fun p => is_rate_limited (ocr1 p)).filter
        (fun p => retry_save_cond (ocr2 p)) ∧
    (ocr_dir_run txt_exists ocr1 ocr2 pngs).failed =
      ((pngs.filter fun p => !txt_exists p).filter
        fun p => is_rate_limited (ocr1 p)).filter
        (fun p => !retry_save_cond (ocr2 p)) := by
  unfold ocr_dir_run
  simp only [first_pass_eq, retry_pass_eq]
  exact ⟨trivial, trivial, trivial, trivial⟩

/-! ## Merge step (llm_ocr.py lines 140–148) -/

/-- Python `str.strip()`: remove whitespace from both ends. -/
def py_strip (s : String) : String :=
  ⟨((s.data.dropWhile Char.isWhitespace).reverse.dropWhile
    Char.isWhitespace).reverse⟩

/-- `glob('*.txt')` membership test on one directory entry name. -/
def is_txt_file (name : String) : Bool := ".txt".data.isSuffixOf name.data

/-- Python string comparison (lexicographic by code point), `a ≤ b`. -/
def str_le : List Char → List Char → Bool
  | [], _ => true
  | _ :: _, [] => false
  | c :: cs, d :: ds => if c < d then true else if d < c then false else str_le cs ds

/-- Sort key of `sorted(output_dir.glob('*.txt'), key=lambda x: str(x))`:
pathname order. -/
def name_le (a b : String) : Bool := str_le a.data b.data

/-- Stable insertion into a sorted list (equal keys keep original order). -/
def insert_sorted (le : String → String → Bool) (a : String) :
    List String → List String
  | [] => [a]
  | b :: l => if le a b then a :: b :: l else b :: insert_sorted le a l

/-- A stable sort, modelling Python's (stable) `sorted`. -/
def sort_stable (le : String → String → Bool) : List String → List String
  | [] => []
  | a :: l => insert_sorted le a (sort_stable le l)

/-- `all_txts = sorted(output_dir.glob('*.txt'), ...)` (llm_ocr.py line
141): the *names* of every `.txt` file present in the output directory at
glob time, in filename-sorted order; contents are only read later, inside
the write loop. -/
def all_txts (files : List (String × String)) : List String :=
  sort_stable name_le ((files.map Prod.fst).filter is_txt_file)

/-- Read a file's current content from the directory (first entry with the
name). -/
def fs_get : List (String × String) → String → Option String
  | [], _ => none
  | f :: fs, name => if f.1 == name then some f.2 else fs_get fs name

/-- Overwrite a file's content, creating the file when absent — the effect
of `open(path, 'w')` (truncate) and of the close flushing the writes. -/
def fs_set : List (String × String) → String → String → List (String × String)
  | [], name, content => [(name, content)]
  | f :: fs, name, content =>
    if f.1 == name then (name, content) :: fs
    else f :: fs_set fs name content

/-- What the loop `for txt in all_txts: f.write(tf.read().strip() + '\n\n')`
(llm_ocr.py lines 145–147) accumulates in the writer's buffer: each named
file's content as read from the directory state `fs` that holds during the
loop. -/
def merged_content (fs : List (String × String)) : List String → String
  | [] => ""
  | name :: names =>
      (py_strip ((fs_get fs name).getD "") ++ "\n\n") ++ merged_content fs names

/-- The merge step (llm_ocr.py lines 140–148) with its file-system effects,
returning the resulting directory. Order of events in the code: the glob
snapshots the `.txt` *names*; then `open(merged_path, 'w')` (line 144)
truncates `{dirname}_merged.txt` — destroying a stale merged file's
contents — before any read happens; the loop then reads each globbed file
from that post-truncation state while its own writes sit in the writer's
buffer (they are smaller than the I/O buffer and land in the file at
close). When no `.txt` file exists nothing is opened or written. -/
def merge_step (files : List (String × String)) (dirName : String) :
    List (String × String) :=
  if all_txts files = [] then files
  else
    fs_set (fs_set files (dirName ++ "_merged.txt") "")
      (dirName ++ "_merged.txt")
      (merged_content (fs_set files (dirName ++ "_merged.txt") "")
        (all_txts files))

theorem fs_get_fs_set_same (fs : List (String × String)) (name c : String) :
    fs_get (fs_set fs name c) name = some c := by
  induction fs with
  | nil => simp [fs_set, fs_get]
  | cons f fs ih =>
    by_cases h : (f.1 == name)
    · simp [fs_set, h, fs_get]
    · simp [fs_set, h, fs_get, ih]

theorem fs_get_fs_set_other (fs : List (String × String)) (name c n : String)
    (hne : n ≠ name) :
    fs_get (fs_set fs name c) n = fs_get fs n := by
  induction fs with
  | nil => simp [fs_set, fs_get, Ne.symm hne]
  | cons f fs ih =>
    by_cases h : (f.1 == name)
    · have hf : f.1 = name := eq_of_beq h
      simp [fs_set, h, fs_get, hf, Ne.symm hne]
    · simp [fs_set, h, fs_get, ih]

theorem fs_get_some_mem {fs : List (String × String)} {name c : String}
    (h : fs_get fs name = some c) : name ∈ fs.map Prod.fst := by
  induction fs with
  | nil => simp [fs_get] at h
  | cons f fs ih =>
    by_cases hb : (f.1 == name)
    · exact List.mem_cons.mpr (Or.inl (eq_of_beq hb).symm)
    · simp only [fs_get, hb, Bool.false_eq_true, if_false] at h
      exact List.mem_cons_of_mem _ (ih h)

theorem mem_insert_sorted (le : String → String → Bool) (a x : String) :
    ∀ l, x ∈ insert_sorted le a l ↔ x = a ∨ x ∈ l := by
  intro l
  induction l with
  | nil => simp [insert_sorted]
  | cons b l ih =>
    by_cases h : le a b
    · simp [insert_sorted, h, List.mem_cons]
    · simp only [insert_sorted, h, Bool.false_eq_true, if_false,
        List.mem_cons, ih]
      tauto

theorem mem_sort_stable (le : String → String → Bool) (x : String) :
    ∀ l, x ∈ sort_stable le l ↔ x ∈ l := by
  intro l
  induction l with
  | nil => simp [sort_stable]
  | cons a l ih =>
    simp [sort_stable, mem_insert_sorted, ih]

/-- **C10, counterexample.** The claim says a stale `{dirname}_merged.txt`
left over from a previous run has its contents incorporated into the new
merged file. In a directory holding the stale merged file (content `"old"`)
and one OCR output `a.txt` (content `"x"`), the program truncates the stale
file at `open(..., 'w')` before reading it, so the new merged file is
`"x\n\n\n\n"` — the prior contents appear nowhere in it. -/
theorem merge_truncates_stale_counterexample :
    fs_get (merge_step [("d" ++ "_merged.txt", "old"), ("a.txt", "x")] "d")
        ("d" ++ "_merged.txt") = some "x\n\n\n\n" ∧
    ¬ ("old".data <:+: "x\n\n\n\n".data) := by decide

/-- **C10 (amended).** When merge is enabled, the glob does list every
`.txt` name present in the output directory at merge time — including a
stale `{dirname}_merged.txt` from a previous run — but
`open(merged_path, 'w')` truncates that file before the read loop, so its
prior contents are never incorporated: after the truncation the stale entry
reads back empty (contributing only a blank separator entry), every other
file reads back unchanged, and the new merged file is exactly the
concatenation, in filename-sorted order, of the globbed files' stripped
post-truncation contents. -/
theorem merge_truncates_stale (files : List (String × String))
    (dirName : String) (oldContent : String)
    (hmem : fs_get files (dirName ++ "_merged.txt") = some oldContent) :
    (dirName ++ "_merged.txt") ∈ all_txts files ∧
    fs_get (fs_set files (dirName ++ "_merged.txt") "")
      (dirName ++ "_merged.txt") = some "" ∧
    (∀ n, n ≠ dirName ++ "_merged.txt" →
      fs_get (fs_set files (dirName ++ "_merged.txt") "") n =
        fs_get files n) ∧
    fs_get (merge_step files dirName) (dirName ++ "_merged.txt") =
      some (merged_content (fs_set files (dirName ++ "_merged.txt") "")
        (all_txts files)) := by
  have htx : is_txt_file (dirName ++ "_merged.txt") = true := by
    unfold is_txt_file
    rw [String.data_append]
    rw [List.isSuffixOf_iff_suffix]
    exact List.IsSuffix.trans (by decide) (List.suffix_append _ _)
  have h1 : (dirName ++ "_merged.txt") ∈ all_txts files := by
    apply (mem_sort_stable name_le _ _).mpr
    exact List.mem_filter.mpr ⟨fs_get_some_mem hmem, htx⟩
  refine ⟨h1, fs_get_fs_set_same _ _ _, ?_, ?_⟩
  · intro n hn
    exact fs_get_fs_set_other _ _ _ _ hn
  · unfold merge_step
    rw [if_neg (List.ne_nil_of_mem h1)]
    exact fs_get_fs_set_same _ _ _
/-- Witness for the amended C10 at the counterexample's directory: the
stale name is globbed, reads back empty after the truncation, the other
file is untouched, and the final merged content is the post-truncation
concatenation. -/
theorem merge_truncates_stale_witness :
    ("d" ++ "_merged.txt") ∈
      all_txts [("d" ++ "_merged.txt", "old"), ("a.txt", "x")] ∧
    fs_get (fs_set [("d" ++ "_merged.txt", "old"), ("a.txt", "x")]
      ("d" ++ "_merged.txt") "") ("d" ++ "_merged.txt") = some "" ∧
    (∀ n, n ≠ "d" ++ "_merged.txt" →
      fs_get (fs_set [("d" ++ "_merged.txt", "old"), ("a.txt", "x")]
        ("d" ++ "_merged.txt") "") n =
        fs_get [("d" ++ "_merged.txt", "old"), ("a.txt", "x")] n) ∧
    fs_get (merge_step [("d" ++ "_merged.txt", "old"), ("a.txt", "x")] "d")
        ("d" ++ "_merged.txt") =
      some (merged_content
        (fs_set [("d" ++ "_merged.txt", "old"), ("a.txt", "x")]
          ("d" ++ "_merged.txt") "")
        (all_txts [("d" ++ "_merged.txt", "old"), ("a.txt", "x")])) :=
  merge_truncates_stale [("d" ++ "_merged.txt", "old"), ("a.txt", "x")] "d"
    "old" (by decide)
